import Mathlib

/-!
Verification of the `align-address` crate (`src/lib.rs`).

The crate provides, for every unsigned integer width `W` (8, 16, 32, 64, 128
and the native word size), four operations stamped out by the `align_impl!`
macro-like duplication:

* `align_down(addr, align)  = addr & !(align - 1)`
* `checked_align_up(addr, align)`: if `addr & (align - 1) == 0` return
  `Some(addr)`, else `(addr | (align - 1)).checked_add(1)`
* `align_up(addr, align)`: unwrap `checked_align_up`, panicking on overflow
* `is_aligned_to(addr, align) = (align_down(addr, align) == addr)`

each preceded by `assert!(align.is_power_of_two())`, which panics on a
non-power-of-two alignment.  The `Align` trait mirrors the free functions:
its `align_down`/`checked_align_up` delegate to them and its
`align_up`/`is_aligned_to` are provided methods defined on top of the two.

Embedding choices: a width is a parameter `w : Nat`; a `W`-bit machine word
is a `Nat` below `2 ^ w`; panics are modelled as `Option.none` (so the free
functions return `Option _`, and `checked_align_up` returns
`Option (Option Nat)`: the outer layer is the assertion, the inner layer is
the overflow check of `checked_add`).  Bitwise operators are `Nat.land`,
`Nat.lor`, `Nat.xor`; the `!` complement at width `w` flips the `w` low bits,
i.e. xors with `2 ^ w - 1`.
-/

namespace AlignAddress

/-- Model of the Rust standard library's `u*::is_power_of_two`, per its
documented semantics: `n.is_power_of_two()` holds iff `n = 2 ^ k` for some
`k`.  The search is bounded by `n` (sound since `k < 2 ^ k`) to keep the
definition executable by kernel reduction. -/
def is_power_of_two (n : Nat) : Bool :=
  (List.range (n + 1)).any fun k => n == 2 ^ k

/-- Bitwise complement `!x` of a `w`-bit machine word: flips every bit below
position `w`. -/
def not_w (w x : Nat) : Nat :=
  (2 ^ w - 1) ^^^ x

/-- Model of the Rust standard library's `u*::checked_add` at width `w`:
`a.checked_add(b)` is `None` exactly when `a + b` does not fit in `w` bits. -/
def checked_add (w a b : Nat) : Option Nat :=
  if a + b < 2 ^ w then some (a + b) else none

/-- `$align_down(addr, align)` from `src/lib.rs` at width `w`:
`assert!(align.is_power_of_two()); addr & !(align - 1)`.
`none` models the panic of the assertion. -/
def align_down (w addr align : Nat) : Option Nat :=
  if is_power_of_two align then
    some (addr &&& not_w w (align - 1))
  else
    none

/-- `$checked_align_up(addr, align)` from `src/lib.rs` at width `w`:
`assert!(align.is_power_of_two()); let align_mask = align - 1;
if addr & align_mask == 0 { Some(addr) } else { (addr | align_mask).checked_add(1) }`.
The outer `none` models the panic of the assertion; the inner option is the
function's own `Option` result. -/
def checked_align_up (w addr align : Nat) : Option (Option Nat) :=
  if is_power_of_two align then
    some
      (if addr &&& (align - 1) == 0 then
        some addr
      else
        checked_add w (addr ||| (align - 1)) 1)
  else
    none

/-- `$align_up(addr, align)` from `src/lib.rs` at width `w`: matches on
`$checked_align_up(addr, align)` and panics (`none`) on overflow; the
assertion panic of the callee also propagates as `none`. -/
def align_up (w addr align : Nat) : Option Nat :=
  match checked_align_up w addr align with
  | some (some aligned) => some aligned
  | some none => none
  | none => none

/-- `$is_aligned_to(addr, align)` from `src/lib.rs` at width `w`:
`$align_down(addr, align) == addr`, with the assertion panic of the callee
propagating as `none`. -/
def is_aligned_to (w addr align : Nat) : Option Bool :=
  match align_down w addr align with
  | some x => some (x == addr)
  | none => none

namespace Align

/-- The `Align` trait's `align_down` for width `w`: the `impl Align for $u`
forwards directly to the free function `$align_down`. -/
def align_down (w addr align : Nat) : Option Nat :=
  AlignAddress.align_down w addr align

/-- The `Align` trait's `checked_align_up` for width `w`: the
`impl Align for $u` forwards directly to the free function
`$checked_align_up`. -/
def checked_align_up (w addr align : Nat) : Option (Option Nat) :=
  AlignAddress.checked_align_up w addr align

/-- The `Align` trait's provided method `align_up` for width `w`:
`self.checked_align_up(align).expect("attempt to add with overflow")`, the
`expect` panic modelled as `none`. -/
def align_up (w addr align : Nat) : Option Nat :=
  match Align.checked_align_up w addr align with
  | some (some aligned) => some aligned
  | some none => none
  | none => none

/-- The `Align` trait's provided method `is_aligned_to` for width `w`:
`self.align_down(align) == self`. -/
def is_aligned_to (w addr align : Nat) : Option Bool :=
  match Align.align_down w addr align with
  | some x => some (x == addr)
  | none => none

end Align

/-! ### Helper lemmas about the bit-level computations -/

theorem is_power_of_two_iff {n : Nat} : is_power_of_two n = true ↔ ∃ k, n = 2 ^ k := by
  simp only [is_power_of_two, List.any_eq_true, List.mem_range, beq_iff_eq]
  constructor
  · rintro ⟨k, -, rfl⟩
    exact ⟨k, rfl⟩
  · rintro ⟨k, rfl⟩
    exact ⟨k, by have := Nat.lt_two_pow k; omega, rfl⟩

/-- Masking a `w`-bit word with the complement of the low-bits mask
`2 ^ k - 1` clears the `k` low bits, i.e. rounds down to a multiple of
`2 ^ k`. -/
theorem land_not_mask {w k addr : Nat} (hk : k ≤ w) (haddr : addr < 2 ^ w) :
    addr &&& not_w w (2 ^ k - 1) = 2 ^ k * (addr / 2 ^ k) := by
  apply Nat.eq_of_testBit_eq
  intro i
  rw [not_w, ← Nat.shiftRight_eq_div_pow, Nat.testBit_and, Nat.testBit_xor,
    Nat.testBit_two_pow_sub_one, Nat.testBit_two_pow_sub_one, Nat.testBit_mul_pow_two,
    Nat.testBit_shiftRight]
  by_cases hik : i < k
  · have hiw : i < w := Nat.lt_of_lt_of_le hik hk
    simp [hik, hiw, Nat.not_le.mpr hik]
  · have hki : k ≤ i := Nat.le_of_not_lt hik
    rw [Nat.add_sub_cancel' hki]
    by_cases hiw : i < w
    · simp [hik, hiw, hki]
    · have hbit : addr.testBit i = false :=
        Nat.testBit_lt_two_pow
          (Nat.lt_of_lt_of_le haddr (Nat.pow_le_pow_right (by omega) (Nat.le_of_not_lt hiw)))
      simp [hik, hiw, hki, hbit]

/-- Or-ing a value below `2 ^ k` into the low-bits mask is absorbed. -/
theorem lor_two_pow_sub_one_of_lt {r k : Nat} (hr : r < 2 ^ k) :
    r ||| (2 ^ k - 1) = 2 ^ k - 1 := by
  apply Nat.eq_of_testBit_eq
  intro i
  rw [Nat.testBit_or, Nat.testBit_two_pow_sub_one]
  by_cases hik : i < k
  · simp [hik]
  · have hbit : r.testBit i = false :=
      Nat.testBit_lt_two_pow
        (Nat.lt_of_lt_of_le hr (Nat.pow_le_pow_right (by omega) (Nat.le_of_not_lt hik)))
    simp [hik, hbit]

/-- Or-ing a word with the low-bits mask `2 ^ k - 1` sets the `k` low bits. -/
theorem lor_mask (addr k : Nat) :
    addr ||| (2 ^ k - 1) = 2 ^ k * (addr / 2 ^ k) + (2 ^ k - 1) := by
  have hm : 2 ^ k - 1 < 2 ^ k := Nat.sub_lt (Nat.two_pow_pos k) Nat.one_pos
  have hr : addr % 2 ^ k < 2 ^ k := Nat.mod_lt addr (Nat.two_pow_pos k)
  conv_lhs => rw [← Nat.div_add_mod addr (2 ^ k)]
  rw [Nat.mul_add_lt_is_or hr, Nat.mul_add_lt_is_or hm, Nat.lor_assoc,
    lor_two_pow_sub_one_of_lt hr]

/-- Closed form of `align_down` on a valid alignment `2 ^ k`. -/
theorem align_down_eq {w k addr : Nat} (hk : k ≤ w) (haddr : addr < 2 ^ w) :
    align_down w addr (2 ^ k) = some (2 ^ k * (addr / 2 ^ k)) := by
  have hpow : is_power_of_two (2 ^ k) = true := is_power_of_two_iff.mpr ⟨k, rfl⟩
  simp [align_down, hpow, land_not_mask hk haddr]

/-- Closed form of `checked_align_up` on a valid alignment `2 ^ k`. -/
theorem checked_align_up_eq {w k addr : Nat} :
    checked_align_up w addr (2 ^ k) =
      some
        (if addr % 2 ^ k = 0 then some addr
        else checked_add w (2 ^ k * (addr / 2 ^ k) + (2 ^ k - 1)) 1) := by
  have hpow : is_power_of_two (2 ^ k) = true := is_power_of_two_iff.mpr ⟨k, rfl⟩
  rw [checked_align_up]
  simp only [hpow, if_true, Nat.and_pow_two_sub_one_eq_mod, lor_mask, beq_iff_eq]

/-- A representable power of two has an exponent at most the width. -/
theorem exp_le_width {w k : Nat} (halign : 2 ^ k < 2 ^ w) : k ≤ w := by
  by_contra h
  exact absurd halign (Nat.not_lt.mpr (Nat.pow_le_pow_right (by omega) (by omega)))

/-- The next multiple of `2 ^ k` strictly above `2 ^ k * q` bounds every
multiple of `2 ^ k` that is at least `2 ^ k * q + r` with `0 < r`. -/
theorem next_multiple_le {k q r m : Nat} (hr : 0 < r)
    (hle : 2 ^ k * q + r ≤ 2 ^ k * m) : 2 ^ k * (q + 1) ≤ 2 ^ k * m := by
  have hqm : q < m := by
    by_contra hmq
    have : 2 ^ k * m ≤ 2 ^ k * q := Nat.mul_le_mul_left _ (by omega)
    omega
  exact Nat.mul_le_mul_left _ hqm

/-- If one more multiple of `2 ^ k` still fits strictly below `2 ^ w`, then
yet another `2 ^ k` fits weakly (both sides are multiples of `2 ^ k`). -/
theorem mul_pow_succ_le {k w q : Nat} (hk : k ≤ w) (h : 2 ^ k * (q + 1) < 2 ^ w) :
    2 ^ k * (q + 1) + 2 ^ k ≤ 2 ^ w := by
  have hw : 2 ^ w = 2 ^ k * 2 ^ (w - k) := by
    rw [← Nat.pow_add, Nat.add_sub_cancel' hk]
  rw [hw] at h ⊢
  have hq : q + 1 < 2 ^ (w - k) := Nat.lt_of_mul_lt_mul_left h
  calc 2 ^ k * (q + 1) + 2 ^ k = 2 ^ k * (q + 2) := by ring
    _ ≤ 2 ^ k * 2 ^ (w - k) := Nat.mul_le_mul_left _ (by omega)

/-- Whenever `checked_align_up` succeeds with a value `y`, that value is a
multiple of the alignment, is at least `addr`, and is below every multiple of
the alignment that is at least `addr`. -/
theorem checked_align_up_some_elim {w k addr y : Nat}
    (h : checked_align_up w addr (2 ^ k) = some (some y)) :
    addr ≤ y ∧ 2 ^ k ∣ y ∧ ∀ z, addr ≤ z → 2 ^ k ∣ z → y ≤ z := by
  have hdm := Nat.div_add_mod addr (2 ^ k)
  have hrlt : addr % 2 ^ k < 2 ^ k := Nat.mod_lt addr (Nat.two_pow_pos k)
  rw [checked_align_up_eq] at h
  by_cases hr : addr % 2 ^ k = 0
  · rw [if_pos hr] at h
    injection h with h
    injection h with h
    subst h
    exact ⟨Nat.le_refl _, Nat.dvd_of_mod_eq_zero hr, fun z hz _ => hz⟩
  · rw [if_neg hr, checked_add] at h
    by_cases hlt : 2 ^ k * (addr / 2 ^ k) + (2 ^ k - 1) + 1 < 2 ^ w
    · rw [if_pos hlt] at h
      injection h with h
      injection h with h
      subst h
      have hmul : 2 ^ k * (addr / 2 ^ k + 1) = 2 ^ k * (addr / 2 ^ k) + 2 ^ k :=
        Nat.mul_succ _ _
      refine ⟨by omega, ?_, ?_⟩
      · rw [(by omega :
          2 ^ k * (addr / 2 ^ k) + (2 ^ k - 1) + 1 = 2 ^ k * (addr / 2 ^ k + 1))]
        exact dvd_mul_right _ _
      · intro z hz hdvd
        obtain ⟨m, rfl⟩ := hdvd
        have := next_multiple_le (Nat.pos_of_ne_zero hr)
          (show 2 ^ k * (addr / 2 ^ k) + addr % 2 ^ k ≤ 2 ^ k * m by omega)
        omega
    · rw [if_neg hlt] at h
      exact absurd h (by simp)

/-! ### The claims -/

/-- C1: for every width `w`, every power-of-two representable `align` and
every representable `addr` such that some representable value at least `addr`
is a multiple of `align`, `checked_align_up` returns `Some x` where `x` is
the unique smallest value that is at least `addr` and a multiple of `align`;
in particular `x` is representable, at least `addr`, and a multiple of
`align`. -/
theorem checked_align_up_correct (w addr align : Nat)
    (hpow : is_power_of_two align = true) (halign : align < 2 ^ w)
    (haddr : addr < 2 ^ w)
    (hex : ∃ y, y < 2 ^ w ∧ addr ≤ y ∧ align ∣ y) :
    ∃ x, checked_align_up w addr align = some (some x) ∧ x < 2 ^ w ∧
      addr ≤ x ∧ align ∣ x ∧ ∀ y, addr ≤ y → align ∣ y → x ≤ y := by
  obtain ⟨k, rfl⟩ := is_power_of_two_iff.mp hpow
  have hdm := Nat.div_add_mod addr (2 ^ k)
  have hrlt : addr % 2 ^ k < 2 ^ k := Nat.mod_lt addr (Nat.two_pow_pos k)
  rw [checked_align_up_eq]
  by_cases hr : addr % 2 ^ k = 0
  · rw [if_pos hr]
    exact ⟨addr, rfl, haddr, Nat.le_refl addr, Nat.dvd_of_mod_eq_zero hr,
      fun y hy _ => hy⟩
  · rw [if_neg hr]
    obtain ⟨y₀, hy₀w, hy₀a, hy₀d⟩ := hex
    have hxle : ∀ y, addr ≤ y → 2 ^ k ∣ y → 2 ^ k * (addr / 2 ^ k + 1) ≤ y := by
      intro y hy hdvd
      obtain ⟨m, rfl⟩ := hdvd
      exact next_multiple_le (Nat.pos_of_ne_zero hr) (by omega)
    have hxw : 2 ^ k * (addr / 2 ^ k + 1) < 2 ^ w :=
      Nat.lt_of_le_of_lt (hxle y₀ hy₀a hy₀d) hy₀w
    have hmul : 2 ^ k * (addr / 2 ^ k + 1) = 2 ^ k * (addr / 2 ^ k) + 2 ^ k :=
      Nat.mul_succ _ _
    rw [checked_add, if_pos (by omega)]
    refine ⟨_, rfl, by omega, by omega, ?_, ?_⟩
    · rw [(by omega :
        2 ^ k * (addr / 2 ^ k) + (2 ^ k - 1) + 1 = 2 ^ k * (addr / 2 ^ k + 1))]
      exact dvd_mul_right _ _
    · intro y hy hdvd
      have := hxle y hy hdvd
      omega

/-- Witness for C1 at width 8, `addr = 123`, `align = 2`. -/
theorem checked_align_up_correct_witness :
    ∃ x, checked_align_up 8 123 2 = some (some x) ∧ x < 2 ^ 8 ∧ 123 ≤ x ∧
      2 ∣ x ∧ ∀ y, 123 ≤ y → 2 ∣ y → x ≤ y :=
  checked_align_up_correct 8 123 2 (by decide) (by decide) (by decide)
    ⟨124, by decide⟩

/-- C2: for every width `w`, every power-of-two representable `align` and
every representable `addr`, `align_down` returns (without panicking) the
unique greatest multiple of `align` that is at most `addr`; the result is at
most `addr` and hence always representable. -/
theorem align_down_correct (w addr align : Nat)
    (hpow : is_power_of_two align = true) (halign : align < 2 ^ w)
    (haddr : addr < 2 ^ w) :
    ∃ x, align_down w addr align = some x ∧ x ≤ addr ∧ x < 2 ^ w ∧ align ∣ x ∧
      ∀ y, y ≤ addr → align ∣ y → y ≤ x := by
  obtain ⟨k, rfl⟩ := is_power_of_two_iff.mp hpow
  have hk : k ≤ w := exp_le_width halign
  have hdm := Nat.div_add_mod addr (2 ^ k)
  refine ⟨2 ^ k * (addr / 2 ^ k), align_down_eq hk haddr, by omega, by omega,
    dvd_mul_right _ _, ?_⟩
  intro y hy hdvd
  obtain ⟨m, rfl⟩ := hdvd
  refine Nat.mul_le_mul_left _ ((Nat.le_div_iff_mul_le (Nat.two_pow_pos k)).mpr ?_)
  rw [Nat.mul_comm]
  exact hy

/-- Witness for C2 at width 8, `addr = 123`, `align = 2`. -/
theorem align_down_correct_witness :
    ∃ x, align_down 8 123 2 = some x ∧ x ≤ 123 ∧ x < 2 ^ 8 ∧ 2 ∣ x ∧
      ∀ y, y ≤ 123 → 2 ∣ y → y ≤ x :=
  align_down_correct 8 123 2 (by decide) (by decide) (by decide)

/-- C3: for every width `w ≥ 2` and power-of-two representable `align`,
`checked_align_up` returns `None` exactly when `addr` is unaligned and lies
within `align` of the width's maximum value `2 ^ w - 1`; when it does, no
representable value at least `addr` is a multiple of `align`.  In particular
`checked_align_up(MAX, 2)` is `None` and `checked_align_up(MAX, 1)` is
`Some(MAX)`. -/
theorem checked_align_up_overflow (w addr align : Nat) (hw : 2 ≤ w)
    (hpow : is_power_of_two align = true) (halign : align < 2 ^ w)
    (haddr : addr < 2 ^ w) :
    (checked_align_up w addr align = some none ↔
      ¬align ∣ addr ∧ 2 ^ w - 1 - addr < align) ∧
    (checked_align_up w addr align = some none →
      ∀ y, y < 2 ^ w → addr ≤ y → ¬align ∣ y) ∧
    checked_align_up w (2 ^ w - 1) 2 = some none ∧
    checked_align_up w (2 ^ w - 1) 1 = some (some (2 ^ w - 1)) := by
  obtain ⟨k, rfl⟩ := is_power_of_two_iff.mp hpow
  have hk : k ≤ w := exp_le_width halign
  have hdm := Nat.div_add_mod addr (2 ^ k)
  have hrlt : addr % 2 ^ k < 2 ^ k := Nat.mod_lt addr (Nat.two_pow_pos k)
  have hdvd : (2 ^ k : Nat) ∣ addr ↔ addr % 2 ^ k = 0 := Nat.dvd_iff_mod_eq_zero
  have hmul : 2 ^ k * (addr / 2 ^ k + 1) = 2 ^ k * (addr / 2 ^ k) + 2 ^ k :=
    Nat.mul_succ _ _
  refine ⟨?_, ?_, ?_, ?_⟩
  · rw [checked_align_up_eq]
    by_cases hr : addr % 2 ^ k = 0
    · rw [if_pos hr]
      simp [hdvd, hr]
    · rw [if_neg hr, checked_add]
      by_cases hlt : 2 ^ k * (addr / 2 ^ k) + (2 ^ k - 1) + 1 < 2 ^ w
      · rw [if_pos hlt]
        have hroom := mul_pow_succ_le hk (show 2 ^ k * (addr / 2 ^ k + 1) < 2 ^ w by omega)
        have : ¬(2 ^ w - 1 - addr < 2 ^ k) := by omega
        simp [this]
      · rw [if_neg hlt]
        have : 2 ^ w - 1 - addr < 2 ^ k := by omega
        simp [hdvd, hr, this]
  · intro hnone y hyw hya hyd
    rw [checked_align_up_eq] at hnone
    by_cases hr : addr % 2 ^ k = 0
    · rw [if_pos hr] at hnone
      exact absurd hnone (by simp)
    · rw [if_neg hr, checked_add] at hnone
      by_cases hlt : 2 ^ k * (addr / 2 ^ k) + (2 ^ k - 1) + 1 < 2 ^ w
      · rw [if_pos hlt] at hnone
        exact absurd hnone (by simp)
      · obtain ⟨m, rfl⟩ := hyd
        have := next_multiple_le (Nat.pos_of_ne_zero hr)
          (show 2 ^ k * (addr / 2 ^ k) + addr % 2 ^ k ≤ 2 ^ k * m by omega)
        omega
  · have h4 : 4 ≤ 2 ^ w := by
      calc (4 : Nat) = 2 ^ 2 := rfl
        _ ≤ 2 ^ w := Nat.pow_le_pow_right (by omega) hw
    obtain ⟨c, hc⟩ := (dvd_pow_self 2 (show w ≠ 0 by omega) : (2 : Nat) ∣ 2 ^ w)
    rw [show (2 : Nat) = 2 ^ 1 from rfl, checked_align_up_eq,
      show (2 : Nat) ^ 1 = 2 from rfl]
    rw [if_neg (by omega), checked_add, if_neg (by omega)]
  · rw [show (1 : Nat) = 2 ^ 0 from rfl, checked_align_up_eq,
      show (2 : Nat) ^ 0 = 1 from rfl, if_pos (Nat.mod_one _)]

/-- Witness for C3 at width 8 (maximum value 255), `addr = 255`,
`align = 2`. -/
theorem checked_align_up_overflow_witness :
    (checked_align_up 8 255 2 = some none ↔
      ¬2 ∣ 255 ∧ 2 ^ 8 - 1 - 255 < 2) ∧
    (checked_align_up 8 255 2 = some none →
      ∀ y, y < 2 ^ 8 → 255 ≤ y → ¬2 ∣ y) ∧
    checked_align_up 8 (2 ^ 8 - 1) 2 = some none ∧
    checked_align_up 8 (2 ^ 8 - 1) 1 = some (some (2 ^ 8 - 1)) :=
  checked_align_up_overflow 8 255 2 (by decide) (by decide) (by decide)
    (by decide)

/-- C4: for every width `w`, every `addr` and every `align` that is not a
power of two (including 0), all four operations panic (modelled as `none`)
instead of returning a value. -/
theorem invalid_align_panics (w addr align : Nat)
    (hpow : is_power_of_two align = false) :
    align_down w addr align = none ∧ checked_align_up w addr align = none ∧
    align_up w addr align = none ∧ is_aligned_to w addr align = none := by
  have h1 : align_down w addr align = none := by simp [align_down, hpow]
  have h2 : checked_align_up w addr align = none := by
    simp [checked_align_up, hpow]
  refine ⟨h1, h2, ?_, ?_⟩
  · unfold align_up
    rw [h2]
  · unfold is_aligned_to
    rw [h1]

/-- Witness for C4 at width 8, `addr = 5`, `align = 3`. -/
theorem invalid_align_panics_witness :
    align_down 8 5 3 = none ∧ checked_align_up 8 5 3 = none ∧
    align_up 8 5 3 = none ∧ is_aligned_to 8 5 3 = none :=
  invalid_align_panics 8 5 3 (by decide)

/-- C5: `align_up` returns exactly the value of a successful
`checked_align_up`, and panics (modelled as `none`) exactly when
`checked_align_up` reports overflow. -/
theorem align_up_unwraps_checked (w addr align : Nat) :
    (∀ x, checked_align_up w addr align = some (some x) →
      align_up w addr align = some x) ∧
    (checked_align_up w addr align = some none →
      align_up w addr align = none) := by
  constructor
  · intro x h
    unfold align_up
    rw [h]
  · intro h
    unfold align_up
    rw [h]

/-- Witness for C5 at width 8, `addr = 123`, `align = 2`. -/
theorem align_up_unwraps_checked_witness : align_up 8 123 2 = some 124 :=
  (align_up_unwraps_checked 8 123 2).1 124 (by decide)

/-- C6: for every width `w`, power-of-two representable `align` and
representable `addr`, the tests `is_aligned_to(addr, align)`,
`align_down(addr, align) == addr` and
`checked_align_up(addr, align) == Some(addr)` all agree, and they hold
exactly when `addr` is a multiple of `align`. -/
theorem is_aligned_to_agrees (w addr align : Nat)
    (hpow : is_power_of_two align = true) (halign : align < 2 ^ w)
    (haddr : addr < 2 ^ w) :
    (is_aligned_to w addr align = some true ↔
      align_down w addr align = some addr) ∧
    (is_aligned_to w addr align = some true ↔
      checked_align_up w addr align = some (some addr)) ∧
    (is_aligned_to w addr align = some true ↔ align ∣ addr) := by
  obtain ⟨k, rfl⟩ := is_power_of_two_iff.mp hpow
  have hk : k ≤ w := exp_le_width halign
  have hdm := Nat.div_add_mod addr (2 ^ k)
  have hrlt : addr % 2 ^ k < 2 ^ k := Nat.mod_lt addr (Nat.two_pow_pos k)
  have hdvd : (2 ^ k : Nat) ∣ addr ↔ addr % 2 ^ k = 0 := Nat.dvd_iff_mod_eq_zero
  have hads := align_down_eq hk haddr
  have h1 : is_aligned_to w addr (2 ^ k) = some true ↔ addr % 2 ^ k = 0 := by
    unfold is_aligned_to
    rw [hads]
    simp only [Option.some.injEq, beq_iff_eq]
    omega
  refine ⟨?_, ?_, ?_⟩
  · rw [h1, hads]
    simp only [Option.some.injEq]
    omega
  · rw [h1, checked_align_up_eq]
    by_cases hr : addr % 2 ^ k = 0
    · rw [if_pos hr]
      simp [hr]
    · rw [if_neg hr, checked_add]
      by_cases hlt : 2 ^ k * (addr / 2 ^ k) + (2 ^ k - 1) + 1 < 2 ^ w
      · rw [if_pos hlt]
        have : ¬(2 ^ k * (addr / 2 ^ k) + (2 ^ k - 1) + 1 = addr) := by omega
        simp [hr, this]
      · rw [if_neg hlt]
        simp [hr]
  · rw [h1, hdvd]

/-- Witness for C6 at width 8, `addr = 128`, `align = 128`. -/
theorem is_aligned_to_agrees_witness :
    (is_aligned_to 8 128 128 = some true ↔
      align_down 8 128 128 = some 128) ∧
    (is_aligned_to 8 128 128 = some true ↔
      checked_align_up 8 128 128 = some (some 128)) ∧
    (is_aligned_to 8 128 128 = some true ↔ 128 ∣ 128) :=
  is_aligned_to_agrees 8 128 128 (by decide) (by decide) (by decide)

/-- C7: for every width `w`, power-of-two representable `align` and
representable `addr`, `align_down` is idempotent, and a successful
`checked_align_up` is idempotent on its result. -/
theorem align_idempotent (w addr align : Nat)
    (hpow : is_power_of_two align = true) (halign : align < 2 ^ w)
    (haddr : addr < 2 ^ w) :
    (∀ x, align_down w addr align = some x → align_down w x align = some x) ∧
    (∀ y, checked_align_up w addr align = some (some y) →
      checked_align_up w y align = some (some y)) := by
  obtain ⟨k, rfl⟩ := is_power_of_two_iff.mp hpow
  have hk : k ≤ w := exp_le_width halign
  have hdm := Nat.div_add_mod addr (2 ^ k)
  have hrlt : addr % 2 ^ k < 2 ^ k := Nat.mod_lt addr (Nat.two_pow_pos k)
  constructor
  · intro x hx
    rw [align_down_eq hk haddr] at hx
    injection hx with hx
    subst hx
    have hxw : 2 ^ k * (addr / 2 ^ k) < 2 ^ w := by omega
    rw [align_down_eq hk hxw, Nat.mul_div_cancel_left _ (Nat.two_pow_pos k)]
  · intro y hy
    have hmod : y % 2 ^ k = 0 := by
      rw [checked_align_up_eq] at hy
      by_cases hr : addr % 2 ^ k = 0
      · rw [if_pos hr] at hy
        injection hy with hy
        injection hy with hy
        subst hy
        exact hr
      · rw [if_neg hr, checked_add] at hy
        by_cases hlt : 2 ^ k * (addr / 2 ^ k) + (2 ^ k - 1) + 1 < 2 ^ w
        · rw [if_pos hlt] at hy
          injection hy with hy
          injection hy with hy
          subst hy
          have hmul : 2 ^ k * (addr / 2 ^ k + 1) = 2 ^ k * (addr / 2 ^ k) + 2 ^ k :=
            Nat.mul_succ _ _
          rw [(by omega :
            2 ^ k * (addr / 2 ^ k) + (2 ^ k - 1) + 1 = 2 ^ k * (addr / 2 ^ k + 1))]
          exact Nat.mul_mod_right _ _
        · rw [if_neg hlt] at hy
          exact absurd hy (by simp)
    rw [checked_align_up_eq, if_pos hmod]

/-- Witness for C7 at width 8, `addr = 123`, `align = 4`. -/
theorem align_idempotent_witness :
    (∀ x, align_down 8 123 4 = some x → align_down 8 x 4 = some x) ∧
    (∀ y, checked_align_up 8 123 4 = some (some y) →
      checked_align_up 8 y 4 = some (some y)) :=
  align_idempotent 8 123 4 (by decide) (by decide) (by decide)

/-- C8: for every width `w` and power-of-two representable `align`, zero is
aligned to `align`; and alignment 1 is the identity for `align_down` and
`align_up` on every representable `addr`, with no panic. -/
theorem align_one_identity (w addr align : Nat)
    (hpow : is_power_of_two align = true) (halign : align < 2 ^ w)
    (haddr : addr < 2 ^ w) :
    is_aligned_to w 0 align = some true ∧ align_down w addr 1 = some addr ∧
    align_up w addr 1 = some addr := by
  obtain ⟨k, rfl⟩ := is_power_of_two_iff.mp hpow
  have hk : k ≤ w := exp_le_width halign
  have h0 : (0 : Nat) < 2 ^ w := Nat.two_pow_pos w
  have hc : checked_align_up w addr 1 = some (some addr) := by
    rw [show (1 : Nat) = 2 ^ 0 from rfl, checked_align_up_eq,
      show (2 : Nat) ^ 0 = 1 from rfl, if_pos (Nat.mod_one _)]
  refine ⟨?_, ?_, ?_⟩
  · unfold is_aligned_to
    rw [align_down_eq hk h0]
    simp
  · rw [show (1 : Nat) = 2 ^ 0 from rfl, align_down_eq (Nat.zero_le w) haddr]
    simp
  · unfold align_up
    rw [hc]

/-- Witness for C8 at width 8, `addr = 200`, `align = 8`. -/
theorem align_one_identity_witness :
    is_aligned_to 8 0 8 = some true ∧ align_down 8 200 1 = some 200 ∧
    align_up 8 200 1 = some 200 :=
  align_one_identity 8 200 8 (by decide) (by decide) (by decide)

/-- C9: on every input, each `Align` trait method produces exactly the same
result (value, `Some`/`None`, and panic behaviour) as the corresponding
free-standing function. -/
theorem trait_agrees_with_free (w addr align : Nat) :
    Align.align_down w addr align = align_down w addr align ∧
    Align.checked_align_up w addr align = checked_align_up w addr align ∧
    Align.align_up w addr align = align_up w addr align ∧
    Align.is_aligned_to w addr align = is_aligned_to w addr align := by
  refine ⟨rfl, rfl, ?_, ?_⟩
  · unfold Align.align_up align_up Align.checked_align_up
    cases checked_align_up w addr align with
    | none => rfl
    | some o =>
      cases o with
      | none => rfl
      | some x => rfl
  · unfold Align.is_aligned_to is_aligned_to Align.align_down
    cases align_down w addr align with
    | none => rfl
    | some x => rfl

/-- C10: for every width `w` and power-of-two representable `align`,
`align_down` is monotone in the address, and so is `checked_align_up`
whenever it succeeds on both addresses. -/
theorem align_monotone (w align : Nat)
    (hpow : is_power_of_two align = true) (halign : align < 2 ^ w) :
    (∀ a₁ a₂ x₁ x₂, a₁ ≤ a₂ → a₁ < 2 ^ w → a₂ < 2 ^ w →
      align_down w a₁ align = some x₁ → align_down w a₂ align = some x₂ →
      x₁ ≤ x₂) ∧
    (∀ a₁ a₂ y₁ y₂, a₁ ≤ a₂ →
      checked_align_up w a₁ align = some (some y₁) →
      checked_align_up w a₂ align = some (some y₂) → y₁ ≤ y₂) := by
  obtain ⟨k, rfl⟩ := is_power_of_two_iff.mp hpow
  have hk : k ≤ w := exp_le_width halign
  constructor
  · intro a₁ a₂ x₁ x₂ h12 h1w h2w hx₁ hx₂
    rw [align_down_eq hk h1w] at hx₁
    rw [align_down_eq hk h2w] at hx₂
    injection hx₁ with hx₁
    injection hx₂ with hx₂
    subst hx₁
    subst hx₂
    exact Nat.mul_le_mul_left _ (Nat.div_le_div_right h12)
  · intro a₁ a₂ y₁ y₂ h12 hy₁ hy₂
    obtain ⟨-, -, hmin⟩ := checked_align_up_some_elim hy₁
    obtain ⟨ha₂, hd₂, -⟩ := checked_align_up_some_elim hy₂
    exact hmin y₂ (Nat.le_trans h12 ha₂) hd₂

/-- Witness for C10 at width 8, `align = 2`. -/
theorem align_monotone_witness :
    (∀ a₁ a₂ x₁ x₂, a₁ ≤ a₂ → a₁ < 2 ^ 8 → a₂ < 2 ^ 8 →
      align_down 8 a₁ 2 = some x₁ → align_down 8 a₂ 2 = some x₂ →
      x₁ ≤ x₂) ∧
    (∀ a₁ a₂ y₁ y₂, a₁ ≤ a₂ →
      checked_align_up 8 a₁ 2 = some (some y₁) →
      checked_align_up 8 a₂ 2 = some (some y₂) → y₁ ≤ y₂) :=
  align_monotone 8 2 (by decide) (by decide)

end AlignAddress
